import Mathlib

/-!
Verification of the `inigo` INI-file parser (`inigo_parser.go`).

Shallow embedding conventions:
* Go strings are modelled as `List Char`; the repository's inputs in the
  verified claims are ASCII, where Go's byte indexing and Lean's character
  lists coincide.
* Go `(T, error)` results are modelled as `Except String T`, with error
  messages mirroring the `fmt.Errorf` format strings of the source
  (`%q` is modelled as plain double-quoting, faithful for the quote-free
  path and value strings exercised here).
* `strings.TrimSpace` / `strings.ToLower` / `unicode.IsSpace` are modelled
  at ASCII level.
* File I/O is modelled by an explicit file system: a finite association
  list from absolute path to the file's lines.  `filepath.Abs` is modelled
  as the identity on the already-absolute paths used in the claims;
  `filepath.Dir` and `filepath.Join` are modelled for clean slash-separated
  paths (no `.`/`..` segments), which is where the source's behaviour and
  the model agree.
* The recursive include engine takes a fuel parameter (decremented on
  every step) to make the recursion structural; running out of fuel is a
  model artifact reported as the distinguished message `fuelMsg`, and all
  general theorems are conditioned on a successful (`.ok`) run.
-/

deriving instance DecidableEq for Except

/-- The single-quote character `'`. -/
def squote : Char := Char.ofNat 39

/-- The backslash character `\`. -/
def bslash : Char := Char.ofNat 92

/-- The horizontal-tab character. -/
def htab : Char := Char.ofNat 9

/-- The comment character `#`. -/
def hashc : Char := '#'

/-- ASCII model of Go `unicode.IsSpace` for the characters that occur in
INI lines: space, TAB, LF, VT, FF, CR. -/
def isSpaceGo (c : Char) : Bool :=
  c = ' ' || c = htab || c = Char.ofNat 10 || c = Char.ofNat 11 ||
  c = Char.ofNat 12 || c = Char.ofNat 13

/-- Source `isAlpha`: ASCII letter test. -/
def isAlpha (c : Char) : Bool :=
  ('a' ≤ c && c ≤ 'z') || ('A' ≤ c && c ≤ 'Z')

/-- Source `isDigit`: ASCII digit test. -/
def isDigit (c : Char) : Bool :=
  '0' ≤ c && c ≤ '9'

/-- ASCII model of Go `strings.ToLower` on a single character. -/
def toLowerChar (c : Char) : Char :=
  if 'A' ≤ c && c ≤ 'Z' then Char.ofNat (c.toNat + 32) else c

/-- ASCII model of Go `strings.ToLower`. -/
def toLowerL (l : List Char) : List Char := l.map toLowerChar

/-- ASCII model of Go `strings.TrimSpace`. -/
def trimSpace (l : List Char) : List Char :=
  ((l.dropWhile isSpaceGo).reverse.dropWhile isSpaceGo).reverse

/-- Model of Go `strings.HasPrefix s p`: `p` is an initial segment of `s`. -/
def listStartsWith (s p : List Char) : Bool :=
  decide (s.take p.length = p)

/-- Byte-wise (here: character-code-wise) lexicographic order on strings,
modelling the order used by Go `sort.Strings`. -/
def lexLe : List Char → List Char → Bool
  | [], _ => true
  | _ :: _, [] => false
  | a :: as, b :: bs =>
    if a = b then lexLe as bs else decide (a.toNat < b.toNat)

/-- Insertion step of the sort modelling `sort.Strings`. -/
def insertSorted (x : List Char) : List (List Char) → List (List Char)
  | [] => [x]
  | y :: ys => if lexLe x y then x :: y :: ys else y :: insertSorted x ys

/-- Sort modelling Go `sort.Strings` (only the multiset of elements matters
for the verified claims). -/
def sortL : List (List Char) → List (List Char)
  | [] => []
  | x :: xs => insertSorted x (sortL xs)

/-- Model of `%q` formatting for the simple strings appearing in error
messages: wrap in double quotes. -/
def quoteGo (l : List Char) : String :=
  "\"" ++ String.mk l ++ "\""

/-! ### Pure lexical helpers of `inigo_parser.go` -/

/-- Body scan of source `parseQuotedValue` (`inigo_parser.go:379`),
positioned after the opening quote.  The `i += 2` skips of the Go loop
become two-element list patterns; `none` is the
"unterminated single-quoted string" failure. -/
def parseQuotedBody : List Char → Option (List Char)
  | [] => none
  | [c] => if c = squote then some [] else none
  | c :: c2 :: rest =>
    if c = bslash && c2 = squote then
      (parseQuotedBody rest).map (fun v => squote :: v)
    else if c = squote then
      if c2 = squote then (parseQuotedBody rest).map (fun v => squote :: v)
      else some []
    else
      (parseQuotedBody (c2 :: rest)).map (fun v => c :: v)

/-- Source `parseQuotedValue`: decode a single-quoted value, skipping the
opening quote (Go starts its loop at `i = 1`); characters after the
closing quote are discarded. -/
def parseQuotedValue (raw : List Char) : Except String (List Char) :=
  match parseQuotedBody raw.tail with
  | some v => .ok v
  | none => .error "unterminated single-quoted string"

/-- Source `parseValue`: empty stays empty, a leading quote triggers
quoted decoding, anything else passes through verbatim. -/
def parseValue (raw : List Char) : Except String (List Char) :=
  match raw with
  | [] => .ok []
  | c :: _ => if c = squote then parseQuotedValue raw else .ok raw

/-- Source `isValidParamName`: `[A-Za-z_][A-Za-z0-9_$]*`. -/
def isValidParamName (name : List Char) : Bool :=
  match name with
  | [] => false
  | c :: rest =>
    (isAlpha c || c = '_') &&
      rest.all (fun ch => isAlpha ch || isDigit ch || ch = '_' || ch = '$')

/-- Source `parseKeyValue`: split on the first `=` (Go `strings.Cut`),
trim and validate the name, trim and decode the value. -/
def parseKeyValue (line : List Char) : Except String (List Char × List Char) :=
  match line.findIdx? (fun c => c = '=') with
  | none =>
    let name := trimSpace line
    if isValidParamName name then .ok (name, [])
    else .error ("invalid parameter name: " ++ quoteGo name)
  | some i =>
    let name := trimSpace (line.take i)
    if isValidParamName name then
      match parseValue (trimSpace (line.drop (i + 1))) with
      | .ok v => .ok (name, v)
      | .error e => .error ("parameter " ++ quoteGo name ++ ": " ++ e)
    else .error ("invalid parameter name: " ++ quoteGo name)

/-- Source `parseSectionHeader`: text between `[` and the first `]`,
trimmed; fails without a `]` or on an empty name. -/
def parseSectionHeader (line : List Char) : Except String (List Char) :=
  match line.findIdx? (fun c => c = ']') with
  | none => .error ("unterminated section header: " ++ quoteGo line)
  | some e =>
    let name := trimSpace ((line.take e).drop 1)
    if name = [] then .error "empty section name"
    else .ok name

/-- Source `matchDirective`: the lower-cased line must start with the
keyword, the original line must be strictly longer, and the character
right after the keyword must be a space, a TAB or a single quote.  On a
match it yields the keyword and the trimmed remainder. -/
def matchDirective (lower original name : List Char) :
    Option (List Char × List Char) :=
  if listStartsWith lower name then
    match original.drop name.length with
    | [] => none
    | next :: _ =>
      if next = ' ' || next = htab || next = squote then
        some (name, trimSpace (original.drop name.length))
      else none
  else none

/-- The directive dispatch of source `handleInclude`: the three include
keywords are tried longest first. -/
def matchAnyDirective (line : List Char) : Option (List Char × List Char) :=
  let lower := toLowerL line
  match matchDirective lower line ("include_if_exists".data) with
  | some r => some r
  | none =>
    match matchDirective lower line ("include_dir".data) with
    | some r => some r
    | none => matchDirective lower line ("include".data)

/-- Source `parseIncludePath`: a quoted path runs to the next quote (no
escape processing), a bare path runs to the first whitespace. -/
def parseIncludePath (s : List Char) : Except String (List Char) :=
  match trimSpace s with
  | [] => .error "missing path"
  | c :: rest =>
    if c = squote then
      match rest.findIdx? (fun ch => ch = squote) with
      | none => .error "unterminated quoted path"
      | some e => .ok (rest.take e)
    else
      match (c :: rest).findIdx? isSpaceGo with
      | some idx => .ok ((c :: rest).take idx)
      | none => .ok (c :: rest)

/-- Model of `filepath.IsAbs` for slash paths. -/
def isAbsPath (p : List Char) : Bool :=
  match p with
  | c :: _ => c = '/'
  | [] => false

/-- Source `resolvePath`: absolute paths pass through, relative paths are
joined under the base directory (`filepath.Join` modelled for clean
paths). -/
def resolvePath (path baseDir : List Char) : List Char :=
  if isAbsPath path then path else baseDir ++ '/' :: path

/-- Model of `filepath.Dir` for clean slash paths: everything before the
last `/` (`"."` when there is no slash, `"/"` for a file at the root). -/
def dirOf (p : List Char) : List Char :=
  match p.reverse.findIdx? (fun c => c = '/') with
  | none => ['.']
  | some ridx =>
    let n := p.length - ridx - 1
    if n = 0 then ['/'] else p.take n

/-! ### Comment stripping (`stripComment`, `inigo_parser.go:304`) -/

/-- Direct translation of the index-based loop of source `stripComment`:
`i` is the loop index, `inQuote` the quote-tracking flag; a `#` outside
quotes returns `line[:i]`, and falling off the end returns the whole
line. -/
def stripCommentGo (line : List Char) (inQuote : Bool) (i : Nat) : List Char :=
  if h : i < line.length then
    if inQuote then
      if line.get ⟨i, h⟩ = bslash ∧ line.get? (i + 1) = some squote then
        stripCommentGo line true (i + 2)
      else if line.get ⟨i, h⟩ = squote then
        if line.get? (i + 1) = some squote then stripCommentGo line true (i + 2)
        else stripCommentGo line false (i + 1)
      else stripCommentGo line true (i + 1)
    else
      if line.get ⟨i, h⟩ = squote then stripCommentGo line true (i + 1)
      else if line.get ⟨i, h⟩ = hashc then line.take i
      else stripCommentGo line false (i + 1)
  else line
termination_by line.length - i

/-- The comment-stripping automaton as described by the spec: scan left to
right tracking the inside-quotes state, where a doubled quote or a
backslash-escaped quote inside a quoted run does not toggle the state.
`some pre` means a `#` outside quotes was found and `pre` is the text kept
before it; `none` means no comment starts in the input. -/
def stripSpecAux : List Char → Bool → Option (List Char)
  | [], _ => none
  | [_], true => none
  | [c], false => if c = hashc then some [] else none
  | c :: c2 :: cs, true =>
    if c = bslash && c2 = squote then
      (stripSpecAux cs true).map (fun p => c :: c2 :: p)
    else if c = squote then
      if c2 = squote then (stripSpecAux cs true).map (fun p => c :: c2 :: p)
      else (stripSpecAux (c2 :: cs) false).map (fun p => c :: p)
    else (stripSpecAux (c2 :: cs) true).map (fun p => c :: p)
  | c :: c2 :: cs, false =>
    if c = squote then (stripSpecAux (c2 :: cs) true).map (fun p => c :: p)
    else if c = hashc then some []
    else (stripSpecAux (c2 :: cs) false).map (fun p => c :: p)

/-- Reassemble a scan result: the kept prefix continued by the automaton's
answer (`some p`: cut, keep `p`; `none`: no cut, keep everything). -/
def specJoin (pre suf : List Char) (r : Option (List Char)) : List Char :=
  match r with
  | some p => pre ++ p
  | none => pre ++ suf

/-- The engine's comment stripper: the automaton run from the
outside-quotes state, keeping the whole line when no unquoted `#`
occurs. -/
def stripComment (line : List Char) : List Char :=
  match stripSpecAux line false with
  | some pre => pre
  | none => line

/-! ### Typed coercion (`parseBool`, `parseInt`) -/

/-- Source `trueWords`. -/
def trueWords : List (List Char) := ["on".data, "true".data, "yes".data]

/-- Source `falseWords`. -/
def falseWords : List (List Char) := ["off".data, "false".data, "no".data]

/-- The `matchesTrue`/`matchesFalse` accumulation loop of source
`parseBool`: or-fold of `strings.HasPrefix w s` over the word list. -/
def matchesAny (ws : List (List Char)) (s : List Char) : Bool :=
  ws.foldl (fun acc w => acc || listStartsWith w s) false

/-- Source `parseBool` (`inigo_parser.go:478`): trim and lower-case, map
exact `1`/`0`, otherwise test the input as a prefix of the two word
sets. -/
def parseBool (s : List Char) : Except String Bool :=
  let t := toLowerL (trimSpace s)
  if t = [] then .error "empty boolean value"
  else if t = ['1'] then .ok true
  else if t = ['0'] then .ok false
  else
    let mt := matchesAny trueWords t
    let mf := matchesAny falseWords t
    if mt && !mf then .ok true
    else if mf && !mt then .ok false
    else if mt && mf then .error ("ambiguous boolean value: " ++ quoteGo t)
    else .error ("invalid boolean value: " ++ quoteGo t)

/-- Numeric value of an ASCII digit or hex letter, as in Go `strconv`
(`'0'-'9'`, then `'a'-'z'` after lower-casing); `none` on any other
character (in particular `'_'`: the model omits Go's digit-separator
underscores, which no verified claim exercises). -/
def digitVal (c : Char) : Option Nat :=
  if isDigit c then some (c.toNat - '0'.toNat)
  else
    let lc := toLowerChar c
    if 'a' ≤ lc && lc ≤ 'z' then some (lc.toNat - 'a'.toNat + 10) else none

/-- Accumulate the digits of a literal in the given base; fails on a
character that is not a digit of the base. -/
def digitsVal (base : Nat) : List Char → Option Nat → Option Nat
  | _, none => none
  | [], some n => some n
  | c :: rest, some n =>
    match digitVal c with
    | some d => if d < base then digitsVal base rest (some (n * base + d)) else none
    | none => none

/-- Base detection of Go `strconv.ParseUint` in base-0 mode: `0b`/`0o`/`0x`
prefixes (when at least one character follows), otherwise a leading `0`
selects octal, otherwise decimal. -/
def baseDetect (s : List Char) : Nat × List Char :=
  match s with
  | '0' :: c :: rest =>
    if toLowerChar c = 'b' && rest ≠ [] then (2, rest)
    else if toLowerChar c = 'o' && rest ≠ [] then (8, rest)
    else if toLowerChar c = 'x' && rest ≠ [] then (16, rest)
    else (8, c :: rest)
  | '0' :: rest => (8, rest)
  | _ => (10, s)

/-- Model of Go `strconv.ParseInt(s, 0, 64)`: optional sign, C-style base
detection, digit accumulation, and the 64-bit range check. -/
def goParseIntBase0 (s : List Char) : Option Int :=
  match s with
  | [] => none
  | _ =>
    let (neg, s1) :=
      match s with
      | c :: rest =>
        if c = '+' then (false, rest)
        else if c = '-' then (true, rest)
        else (false, s)
      | [] => (false, s)
    match s1 with
    | [] => none
    | _ =>
      let (base, s2) := baseDetect s1
      match digitsVal base s2 (some 0) with
      | none => none
      | some n =>
        if neg then
          if n ≤ 2 ^ 63 then some (-(n : Int)) else none
        else
          if n < 2 ^ 63 then some (n : Int) else none

/-- Digits of a decimal fraction accumulated into a mantissa and a count
of fractional places; fails on a non-digit. -/
def fracDigits : List Char → Nat → Nat → Option (Nat × Nat)
  | [], m, k => some (m, k)
  | c :: rest, m, k =>
    if isDigit c then fracDigits rest (m * 10 + (c.toNat - '0'.toNat)) (k + 1)
    else none

/-- Leading run of decimal digits and the remainder of the input. -/
def takeDigits : List Char → Nat → Nat × Nat × List Char
  | [], n => (n, 0, [])
  | c :: rest, n =>
    if isDigit c then
      let (m, k, r) := takeDigits rest (n * 10 + (c.toNat - '0'.toNat))
      (m, k + 1, r)
    else (n, 0, c :: rest)

/-- Model of Go `strconv.ParseFloat` restricted to finite decimal literals
(`[sign] digits [. digits] [e|E [sign] digits]`, at least one mantissa
digit), yielding the literal as a sign, a mantissa and a power of ten.
Hex floats, `inf`/`nan` forms, digit-separator underscores, and binary64
rounding are not modelled; no verified claim depends on them. -/
def goParseFloatP (s : List Char) : Option (Bool × Nat × Int) :=
  match s with
  | [] => none
  | _ =>
    let (neg, s1) :=
      match s with
      | c :: rest =>
        if c = '+' then (false, rest)
        else if c = '-' then (true, rest)
        else (false, s)
      | [] => (false, s)
    let (ip, ipCount, r1) := takeDigits s1 0
    let withFrac : Option (Nat × Nat × List Char) :=
      match r1 with
      | '.' :: r2 =>
        let (fp, fpCount, r3) := takeDigits r2 0
        if ipCount = 0 && fpCount = 0 then none
        else some (ip * 10 ^ fpCount + fp, fpCount, r3)
      | _ => if ipCount = 0 then none else some (ip, 0, r1)
    match withFrac with
    | none => none
    | some (mant, places, r4) =>
      let withExp : Option (Nat × Int) :=
        match r4 with
        | [] => some (mant, -(places : Int))
        | e :: r5 =>
          if toLowerChar e = 'e' then
            let (eneg, r6) :=
              match r5 with
              | c :: rest =>
                if c = '+' then (false, rest)
                else if c = '-' then (true, rest)
                else (false, r5)
              | [] => (false, r5)
            match r6 with
            | [] => none
            | _ =>
              let (ev, evCount, r7) := takeDigits r6 0
              if evCount = 0 || r7 ≠ [] then none
              else
                let ei : Int := if eneg then -(ev : Int) else (ev : Int)
                some (mant, ei - (places : Int))
          else none
      match withExp with
      | none => none
      | some (m, e) => some (neg, m, e)

/-- The exact rational value denoted by a parsed float literal. -/
def ratOfFloat (f : Bool × Nat × Int) : ℚ :=
  if f.1 then -((f.2.1 : ℚ) * (10 : ℚ) ^ f.2.2)
  else (f.2.1 : ℚ) * (10 : ℚ) ^ f.2.2

/-- Model of Go `strconv.ParseFloat` as an exact rational (the
interpretation of `goParseFloatP`). -/
def goParseFloatQ (s : List Char) : Option ℚ :=
  (goParseFloatP s).map ratOfFloat

/-- Go `math.Round`: round half away from zero, here on exact
rationals. -/
def roundHalfAway (q : ℚ) : Int :=
  if 0 ≤ q then ⌊q + 1 / 2⌋ else -⌊-q + 1 / 2⌋

/-- Round-half-away-from-zero of a parsed float literal, computed on
integers (`m * 10 ^ e` for a nonnegative exponent, Euclidean division
with a half-step test otherwise); `roundHalfAwayP_eq` proves it agrees
with `roundHalfAway` on the literal's rational value. -/
def roundHalfAwayP (f : Bool × Nat × Int) : Int :=
  let r : Int :=
    match f.2.2 with
    | .ofNat k => ((f.2.1 * 10 ^ k : Nat) : Int)
    | .negSucc k =>
      ((f.2.1 / 10 ^ (k + 1) : Nat) : Int) +
        (if 10 ^ (k + 1) ≤ 2 * (f.2.1 % 10 ^ (k + 1)) then 1 else 0)
  if f.1 then -r else r

/-- Source `parseInt` (`inigo_parser.go:519`): trim, reject empty, try
base-sensitive integer parsing, fall back to float parsing rounded half
away from zero (the resulting integral value is kept exact; the claims do
not exercise the out-of-`int64`-range conversion). -/
def parseInt (s : List Char) : Except String Int :=
  let t := trimSpace s
  if t = [] then .error "empty integer value"
  else
    match goParseIntBase0 t with
    | some n => .ok n
    | none =>
      match goParseFloatP t with
      | some f => .ok (roundHalfAwayP f)
      | none => .error ("invalid integer value: " ++ quoteGo t)

/-! ### Data model (`Config`, `Section`, `Param`) -/

/-- Source `Param`: originally-cased name and raw decoded value. -/
structure ParamV where
  name : List Char
  value : List Char
deriving DecidableEq

instance : Inhabited ParamV := ⟨⟨[], []⟩⟩

/-- A section's parameter map (`Section.params`): association list keyed by
the lower-cased parameter name (Go map, modelled with unique keys). -/
abbrev Params := List (List Char × ParamV)

/-- Assoc-list lookup modelling Go map read `m[k]`. -/
def findP (ps : Params) (k : List Char) : Option ParamV :=
  match ps with
  | [] => none
  | (k', v) :: rest => if k' = k then some v else findP rest k

/-- Assoc-list write modelling Go map write `m[k] = v`: replace the entry
when the key is present, append otherwise. -/
def upsert (ps : Params) (k : List Char) (v : ParamV) : Params :=
  match ps with
  | [] => [(k, v)]
  | (k', v') :: rest =>
    if k' = k then (k, v) :: rest else (k', v') :: upsert rest k v

/-- Source `Section.HasParam`: lower-cased lookup succeeds. -/
def HasParam (ps : Params) (name : List Char) : Bool :=
  (findP ps (toLowerL name)).isSome

/-- Source `Section.GetParam`: lower-cased lookup, falling back to a
`Param` with the queried name and an empty value. -/
def GetParam (ps : Params) (name : List Char) : ParamV :=
  match findP ps (toLowerL name) with
  | some p => p
  | none => ⟨name, []⟩

/-- Source `Section.AllParams`: the stored (case-folded) keys, sorted. -/
def AllParams (ps : Params) : List (List Char) :=
  sortL (ps.map Prod.fst)

/-- Source `Config.sections`: association list from section name to that
section's parameter map (the `Section.name` field is the key itself). -/
abbrev Config := List (List Char × Params)

/-- Assoc-list lookup for sections. -/
def findSec (cfg : Config) (name : List Char) : Option Params :=
  match cfg with
  | [] => none
  | (n, ps) :: rest => if n = name then some ps else findSec rest name

/-- Source `Config.Section`: the section's parameter map, or `none`
(Go `nil`) when absent. -/
def sectionF (cfg : Config) (name : List Char) : Option Params :=
  findSec cfg name

/-- Source `Config.HasSection`. -/
def HasSection (cfg : Config) (name : List Char) : Bool :=
  (findSec cfg name).isSome

/-- Source `Config.SectionNames`: all names except the default `""`,
sorted. -/
def SectionNames (cfg : Config) : List (List Char) :=
  sortL ((cfg.map Prod.fst).filter (fun n => !n.isEmpty))

/-- Rewrite one section's parameter map in place (Go mutates the
`*Section` the parser currently points at). -/
def updateSec (cfg : Config) (name : List Char) (f : Params → Params) :
    Config :=
  match cfg with
  | [] => []
  | (n, ps) :: rest =>
    if n = name then (n, f ps) :: rest else (n, ps) :: updateSec rest name f

/-! ### The parser / include engine -/

/-- Source `parser` state: the config under construction, the name of the
currently active section, and the visited-paths set for cycle
detection. -/
structure PState where
  sections : Config
  current : List Char
  visited : List (List Char)
deriving DecidableEq

/-- Source `newParser`: a config holding only the empty default section,
which is also the active section; nothing visited yet. -/
def initState : PState :=
  { sections := [([], [])], current := [], visited := [] }

/-- Section-header step of `parser.parse`: look up or create the named
section and make it active. -/
def enterSection (st : PState) (name : List Char) : PState :=
  if (findSec st.sections name).isSome then { st with current := name }
  else { st with sections := st.sections ++ [(name, [])], current := name }

/-- Key/value step of `parser.parse`: upsert into the active section under
the lower-cased key, keeping the original case as the display name. -/
def setParam (st : PState) (key value : List Char) : PState :=
  { st with
    sections :=
      updateSec st.sections st.current
        (fun ps => upsert ps (toLowerL key) ⟨key, value⟩) }

/-- The modelled file system: absolute path ↦ lines of the file. -/
abbrev FS := List (List Char × List (List Char))

/-- File lookup, modelling `os.Open` / `os.Stat` success. -/
def findFS (fs : FS) (path : List Char) : Option (List (List Char)) :=
  match fs with
  | [] => none
  | (p, ls) :: rest => if p = path then some ls else findFS rest path

/-- Base name of a file directly inside `dir`, if it is (no further
slashes). -/
def childName (dir path : List Char) : Option (List Char) :=
  if listStartsWith path (dir ++ ['/']) then
    let rest := path.drop (dir.length + 1)
    if rest.any (fun c => c = '/') then none
    else if rest = [] then none else some rest
  else none

/-- Model of the `os.ReadDir` + filter step of source `parser.loadDir`:
names of regular files directly inside `dir` that end in `.conf` and do
not start with a dot, sorted in byte order. -/
def dirConfFiles (fs : FS) (dir : List Char) : List (List Char) :=
  sortL ((fs.map Prod.fst).filterMap (fun p =>
    match childName dir p with
    | some n =>
      if listStartsWith n ['.'] then none
      else if listStartsWith n.reverse ("fnoc.".data) then some n
      else none
    | none => none))

/-- Model-artifact message produced when the fuel counter reaches zero. -/
def fuelMsg : String := "model: out of fuel"

mutual

/-- Source `parser.parse` (`inigo_parser.go:181`): per line, strip
comments, trim, skip blanks, handle section headers, dispatch include
directives, otherwise upsert a key/value pair.  `fuel` is decremented on
every step so the mutual recursion is structural. -/
def runLines (fs : FS) (fuel : Nat) (st : PState) (baseDir : List Char)
    (lines : List (List Char)) : Except String PState :=
  match fuel with
  | 0 => .error fuelMsg
  | fuel' + 1 =>
    match lines with
    | [] => .ok st
    | line :: rest =>
      let l := trimSpace (stripComment line)
      if l = [] then runLines fs fuel' st baseDir rest
      else if listStartsWith l ['['] then
        match parseSectionHeader l with
        | .error e => .error e
        | .ok name => runLines fs fuel' (enterSection st name) baseDir rest
      else
        match matchAnyDirective l with
        | some (directive, restArg) =>
          if baseDir = [] then
            .error (String.mk directive ++
              ": cannot resolve paths without a base directory")
          else
            match parseIncludePath restArg with
            | .error e => .error (String.mk directive ++ ": " ++ e)
            | .ok path =>
              let resolved := resolvePath path baseDir
              if directive = "include".data then
                match loadFile fs fuel' st resolved with
                | .error e => .error e
                | .ok st' => runLines fs fuel' st' baseDir rest
              else if directive = "include_if_exists".data then
                if (findFS fs resolved).isSome then
                  match loadFile fs fuel' st resolved with
                  | .error e => .error e
                  | .ok st' => runLines fs fuel' st' baseDir rest
                else runLines fs fuel' st baseDir rest
              else
                match loadDir fs fuel' st resolved with
                | .error e => .error e
                | .ok st' => runLines fs fuel' st' baseDir rest
        | none =>
          match parseKeyValue l with
          | .error e => .error e
          | .ok (key, value) =>
            runLines fs fuel' (setParam st key value) baseDir rest

/-- Source `parser.loadFile` (`inigo_parser.go:163`): fail with the
circular-include condition when the absolute path was already visited,
otherwise mark it visited, open it, and parse its lines relative to its
directory. -/
def loadFile (fs : FS) (fuel : Nat) (st : PState) (absPath : List Char) :
    Except String PState :=
  match fuel with
  | 0 => .error fuelMsg
  | fuel' + 1 =>
    if absPath ∈ st.visited then
      .error ("circular include detected: " ++ quoteGo absPath)
    else
      match findFS fs absPath with
      | none => .error ("failed to open " ++ quoteGo absPath)
      | some ls =>
        runLines fs fuel' { st with visited := absPath :: st.visited }
          (dirOf absPath) ls

/-- Source `parser.loadDir` (`inigo_parser.go:275`): load every retained
`.conf` file of the directory in sorted order (the unreadable-directory
error of `os.ReadDir` is not modelled; no verified claim depends on
it). -/
def loadDir (fs : FS) (fuel : Nat) (st : PState) (dir : List Char) :
    Except String PState :=
  match fuel with
  | 0 => .error fuelMsg
  | fuel' + 1 => loadDirFiles fs fuel' st dir (dirConfFiles fs dir)

/-- The sequential load loop at the end of source `parser.loadDir`. -/
def loadDirFiles (fs : FS) (fuel : Nat) (st : PState) (dir : List Char)
    (files : List (List Char)) : Except String PState :=
  match fuel with
  | 0 => .error fuelMsg
  | fuel' + 1 =>
    match files with
    | [] => .ok st
    | name :: rest =>
      match loadFile fs fuel' st (dir ++ '/' :: name) with
      | .error e => .error e
      | .ok st' => loadDirFiles fs fuel' st' dir rest

end

/-- Source `Parse`: run the engine on in-memory lines with no base
directory (so include directives fail), returning the built config. -/
def goParse (fuel : Nat) (lines : List (List Char)) :
    Except String Config :=
  (runLines [] fuel initState [] lines).map PState.sections

/-- Source `Load`: run `loadFile` from a fresh parser state on an
absolute path (`filepath.Abs` modelled as the identity on absolute
paths), returning the built config. -/
def goLoad (fs : FS) (fuel : Nat) (absPath : List Char) :
    Except String Config :=
  (loadFile fs fuel initState absPath).map PState.sections

/-- Convenience observer for concrete runs: the `GetParam` result of the
named section of a successfully built config. -/
def resultParam (r : Except String Config) (sec name : List Char) :
    Option ParamV :=
  match r with
  | .error _ => none
  | .ok cfg =>
    match sectionF cfg sec with
    | none => none
    | some ps => some (GetParam ps name)

/-! ### Definitions used to state the claims -/

/-- `sub` occurs as a contiguous substring of `s`. -/
def containsSub (s sub : String) : Prop :=
  ∃ a b : String, s = a ++ sub ++ b

/-- The spec's "input is a prefix of at least one word in the set `ws`". -/
def prefixesWordIn (ws : List (List Char)) (t : List Char) : Prop :=
  ∃ w ∈ ws, ∃ u, w = t ++ u

/-- Number of entries of a parameter map stored under key `k`. -/
def countKey (ps : Params) (k : List Char) : Nat :=
  (ps.filter (fun e => decide (e.1 = k))).length

/-- The keys of a parameter map are pairwise distinct (the Go-map
invariant of `Section.params`). -/
def nodupKeys (ps : Params) : Prop :=
  (ps.map Prod.fst).Nodup

/-- Quote a value writing every embedded single quote doubled (`''`), as
in the round-trip claim. -/
def encodeDoubled (v : List Char) : List Char :=
  squote ::
    (v.map (fun c => if c = squote then [squote, squote] else [c])).flatten
    ++ [squote]

/-- Quote a value writing every embedded single quote backslash-escaped
(`\'`), as in the round-trip claim. -/
def encodeBackslash (v : List Char) : List Char :=
  squote ::
    (v.map (fun c => if c = squote then [bslash, squote] else [c])).flatten
    ++ [squote]

/-- Scenario file system: `a.conf` and `b.conf` include each other. -/
def cfsMutual : FS :=
  [("/d/a.conf".data, ["include 'b.conf'".data]),
   ("/d/b.conf".data, ["include 'a.conf'".data])]

/-- Scenario file system: a file that includes itself. -/
def cfsSelf : FS :=
  [("/d/self.conf".data, ["include 'self.conf'".data])]

/-- Scenario file system: the main file assigns `Key`, then an included
file reassigns the same case-folded name as `KEY`. -/
def cfsInclude : FS :=
  [("/r/main.conf".data, ["Key = a".data, "include 'sub.conf'".data]),
   ("/r/sub.conf".data, ["KEY = b".data])]

/-! ### Helper lemmas -/

theorem listStartsWith_iff (w t : List Char) :
    listStartsWith w t = true ↔ ∃ u, w = t ++ u := by
  unfold listStartsWith
  simp only [decide_eq_true_eq]
  constructor
  · intro h
    exact ⟨w.drop t.length, by
      conv_lhs => rw [← List.take_append_drop t.length w]
      rw [h]⟩
  · rintro ⟨u, rfl⟩
    exact List.take_left t u

theorem matchesAny_iff (ws : List (List Char)) (t : List Char) :
    matchesAny ws t = true ↔ ∃ w ∈ ws, ∃ u, w = t ++ u := by
  have hfold : ∀ (l : List (List Char)) (b : Bool),
      l.foldl (fun acc w => acc || listStartsWith w t) b =
        (b || l.any (fun w => listStartsWith w t)) := by
    intro l
    induction l with
    | nil => simp
    | cons x xs ih =>
      intro b
      simp only [List.foldl_cons, List.any_cons, ih, Bool.or_assoc]
  unfold matchesAny
  rw [hfold]
  simp only [Bool.false_or, List.any_eq_true]
  constructor
  · rintro ⟨w, hw, hsw⟩
    exact ⟨w, hw, (listStartsWith_iff w t).mp hsw⟩
  · rintro ⟨w, hw, hu⟩
    exact ⟨w, hw, (listStartsWith_iff w t).mpr hu⟩

theorem findP_upsert_self (ps : Params) (k : List Char) (v : ParamV) :
    findP (upsert ps k v) k = some v := by
  induction ps with
  | nil => simp [upsert, findP]
  | cons e rest ih =>
    obtain ⟨k', v'⟩ := e
    by_cases h : k' = k
    · simp [upsert, h, findP]
    · simp [upsert, h, findP, ih]

theorem keys_upsert (ps : Params) (k : List Char) (v : ParamV) :
    (upsert ps k v).map Prod.fst =
      if k ∈ ps.map Prod.fst then ps.map Prod.fst
      else ps.map Prod.fst ++ [k] := by
  induction ps with
  | nil => simp [upsert]
  | cons e rest ih =>
    obtain ⟨k', v'⟩ := e
    by_cases h : k' = k
    · simp [upsert, h]
    · simp only [upsert, if_neg h, List.map_cons, ih]
      by_cases hm : k ∈ rest.map Prod.fst
      · simp [hm, Ne.symm h]
      · simp [hm, Ne.symm h]

theorem nodupKeys_upsert (ps : Params) (k : List Char) (v : ParamV)
    (h : nodupKeys ps) : nodupKeys (upsert ps k v) := by
  unfold nodupKeys at h ⊢
  rw [keys_upsert]
  by_cases hm : k ∈ ps.map Prod.fst
  · simpa [hm] using h
  · simp only [if_neg hm]
    exact List.Nodup.append h (List.nodup_singleton k)
      (by simpa [List.disjoint_singleton] using hm)

theorem countKey_upsert_self (ps : Params) (k : List Char) (v : ParamV)
    (h : nodupKeys ps) : countKey (upsert ps k v) k = 1 := by
  induction ps with
  | nil => simp [upsert, countKey]
  | cons e rest ih =>
    obtain ⟨k', v'⟩ := e
    unfold nodupKeys at h
    simp only [List.map_cons, List.nodup_cons] at h
    by_cases hk : k' = k
    · subst hk
      have hrest : rest.filter (fun e => decide (e.1 = k')) = [] := by
        rw [List.filter_eq_nil_iff]
        intro a ha
        simp only [decide_eq_true_eq]
        intro hak
        exact h.1 (hak ▸ List.mem_map_of_mem Prod.fst ha)
      simp [upsert, countKey, hrest]
    · have ihr := ih h.2
      unfold countKey at ihr ⊢
      simp [upsert, hk, List.filter_cons, ihr]

theorem findSec_isSome_iff (cfg : Config) (n : List Char) :
    (findSec cfg n).isSome = true ↔ n ∈ cfg.map Prod.fst := by
  induction cfg with
  | nil => simp [findSec]
  | cons e rest ih =>
    obtain ⟨k, ps⟩ := e
    by_cases h : k = n
    · simp [findSec, h]
    · simp [findSec, h, ih, Ne.symm h]

theorem keys_updateSec (cfg : Config) (name : List Char) (f : Params → Params) :
    (updateSec cfg name f).map Prod.fst = cfg.map Prod.fst := by
  induction cfg with
  | nil => simp [updateSec]
  | cons e rest ih =>
    obtain ⟨k, ps⟩ := e
    by_cases h : k = name
    · simp [updateSec, h]
    · simp [updateSec, h, ih]

theorem mem_insertSorted (x a : List Char) (l : List (List Char)) :
    a ∈ insertSorted x l ↔ a = x ∨ a ∈ l := by
  induction l with
  | nil => simp [insertSorted]
  | cons y ys ih =>
    by_cases h : lexLe x y
    · simp [insertSorted, h]
    · simp only [insertSorted, if_neg h, List.mem_cons, ih]
      tauto

theorem mem_sortL (a : List Char) (l : List (List Char)) :
    a ∈ sortL l ↔ a ∈ l := by
  induction l with
  | nil => simp [sortL]
  | cons x xs ih =>
    simp only [sortL, mem_insertSorted, ih, List.mem_cons]

theorem sectionNames_not_default (cfg : Config) :
    [] ∉ SectionNames cfg := by
  unfold SectionNames
  rw [mem_sortL]
  intro h
  have := (List.mem_filter.mp h).2
  simp [List.isEmpty_nil] at this

theorem prefixesWordIn_iff (ws : List (List Char)) (t : List Char) :
    prefixesWordIn ws t ↔ matchesAny ws t = true :=
  (matchesAny_iff ws t).symm

theorem matchesAny_false_iff (ws : List (List Char)) (t : List Char) :
    matchesAny ws t = false ↔ ¬ prefixesWordIn ws t := by
  constructor
  · intro h hc
    rw [(matchesAny_iff ws t).mpr hc] at h
    cases h
  · intro h
    cases hm : matchesAny ws t
    · rfl
    · exact absurd ((matchesAny_iff ws t).mp hm) h

/-! ### Claim theorems -/

/-- C9: `Section.GetParam` never fails: whenever no parameter with the
queried case-folded name exists, it returns a `Param` carrying the queried
name and the empty string value (rather than an absent result or an
error). -/
theorem getParam_total (ps : Params) (name : List Char)
    (h : HasParam ps name = false) :
    GetParam ps name = ⟨name, []⟩ ∧ (GetParam ps name).value = [] := by
  unfold HasParam at h
  unfold GetParam
  cases hf : findP ps (toLowerL name) with
  | none => exact ⟨rfl, rfl⟩
  | some p => rw [hf] at h; cases h

/-- Witness for C9 at a concrete absent name. -/
theorem getParam_total_witness :
    GetParam [] ("dbname".data) = ⟨"dbname".data, []⟩ ∧
    (GetParam [] ("dbname".data)).value = [] :=
  getParam_total [] ("dbname".data) (by decide)

/-- C3: `parseBool` after trimming and lower-casing maps exact `1`/`0`
directly, returns the truth value of the single word set the input
prefixes, fails as ambiguous when it prefixes words in both sets, fails
as invalid when it prefixes neither, and fails on empty input; in
particular `"o"` is ambiguous, `"t"` is true, `"f"` is false and `""`
fails. -/
theorem parseBool_spec :
    parseBool ("o".data) = .error "ambiguous boolean value: \"o\"" ∧
    parseBool ("t".data) = .ok true ∧
    parseBool ("f".data) = .ok false ∧
    parseBool ("".data) = .error "empty boolean value" ∧
    (∀ s, toLowerL (trimSpace s) = [] →
      parseBool s = .error "empty boolean value") ∧
    (∀ s, toLowerL (trimSpace s) = ['1'] → parseBool s = .ok true) ∧
    (∀ s, toLowerL (trimSpace s) = ['0'] → parseBool s = .ok false) ∧
    (∀ s, toLowerL (trimSpace s) ≠ [] → toLowerL (trimSpace s) ≠ ['1'] →
      toLowerL (trimSpace s) ≠ ['0'] →
      (prefixesWordIn trueWords (toLowerL (trimSpace s)) →
        ¬ prefixesWordIn falseWords (toLowerL (trimSpace s)) →
        parseBool s = .ok true) ∧
      (prefixesWordIn falseWords (toLowerL (trimSpace s)) →
        ¬ prefixesWordIn trueWords (toLowerL (trimSpace s)) →
        parseBool s = .ok false) ∧
      (prefixesWordIn trueWords (toLowerL (trimSpace s)) →
        prefixesWordIn falseWords (toLowerL (trimSpace s)) →
        parseBool s =
          .error ("ambiguous boolean value: " ++
            quoteGo (toLowerL (trimSpace s)))) ∧
      (¬ prefixesWordIn trueWords (toLowerL (trimSpace s)) →
        ¬ prefixesWordIn falseWords (toLowerL (trimSpace s)) →
        parseBool s =
          .error ("invalid boolean value: " ++
            quoteGo (toLowerL (trimSpace s))))) := by
  refine ⟨by decide, by decide, by decide, by decide, ?_, ?_, ?_, ?_⟩
  · intro s h
    simp [parseBool, h]
  · intro s h
    simp [parseBool, h]
  · intro s h
    simp [parseBool, h]
  · intro s h0 h1 h2
    refine ⟨?_, ?_, ?_, ?_⟩ <;> intro hA hB
    · have h3 := (prefixesWordIn_iff _ _).mp hA
      have h4 := (matchesAny_false_iff _ _).mpr hB
      simp [parseBool, h0, h1, h2, h3, h4]
    · have h3 := (prefixesWordIn_iff _ _).mp hA
      have h4 := (matchesAny_false_iff _ _).mpr hB
      simp [parseBool, h0, h1, h2, h3, h4]
    · have h3 := (prefixesWordIn_iff _ _).mp hA
      have h4 := (prefixesWordIn_iff _ _).mp hB
      simp [parseBool, h0, h1, h2, h3, h4]
    · have h3 := (matchesAny_false_iff _ _).mpr hA
      have h4 := (matchesAny_false_iff _ _).mpr hB
      simp [parseBool, h0, h1, h2, h3, h4]

/-- Witness for C3 at concrete inputs exercising each hypothesis-guarded
branch. -/
theorem parseBool_spec_witness :
    parseBool ("ye".data) = .ok true ∧
    parseBool ("N".data) = .ok false ∧
    parseBool ("maybe".data) =
      .error ("invalid boolean value: " ++ quoteGo ("maybe".data)) ∧
    parseBool ("  1 ".data) = .ok true := by
  have h := parseBool_spec
  refine ⟨?_, ?_, ?_, ?_⟩
  · exact (h.2.2.2.2.2.2.2 ("ye".data) (by decide) (by decide) (by decide)).1
      ((prefixesWordIn_iff _ _).mpr (by decide))
      (fun hc => absurd ((prefixesWordIn_iff _ _).mp hc) (by decide))
  · exact (h.2.2.2.2.2.2.2 ("N".data) (by decide) (by decide) (by decide)).2.1
      ((prefixesWordIn_iff _ _).mpr (by decide))
      (fun hc => absurd ((prefixesWordIn_iff _ _).mp hc) (by decide))
  · exact (h.2.2.2.2.2.2.2 ("maybe".data) (by decide) (by decide)
        (by decide)).2.2.2
      (fun hc => absurd ((prefixesWordIn_iff _ _).mp hc) (by decide))
      (fun hc => absurd ((prefixesWordIn_iff _ _).mp hc) (by decide))
  · exact h.2.2.2.2.2.1 ("  1 ".data) (by decide)


theorem floor_add_half_int (n : ℤ) : ⌊(n : ℚ) + 1 / 2⌋ = n := by
  rw [Int.floor_int_add]
  norm_num

theorem floor_div_add_half (m d : ℕ) (hd : 0 < d) :
    ⌊(m : ℚ) / (d : ℚ) + 1 / 2⌋ =
      ((m / d : ℕ) : ℤ) + (if d ≤ 2 * (m % d) then 1 else 0) := by
  have hd0 : (0 : ℚ) < (d : ℚ) := by exact_mod_cast hd
  have hne : (d : ℚ) ≠ 0 := ne_of_gt hd0
  have hmod : m % d < d := Nat.mod_lt _ hd
  have hsplit : (m : ℚ) / (d : ℚ) =
      ((m / d : ℕ) : ℚ) + ((m % d : ℕ) : ℚ) / (d : ℚ) := by
    have hnat0 : m = d * (m / d) + m % d := (Nat.div_add_mod m d).symm
    have hnat : (m : ℚ) = ((m / d : ℕ) : ℚ) * (d : ℚ) + ((m % d : ℕ) : ℚ) := by
      conv_lhs => rw [hnat0]
      push_cast
      ring
    rw [hnat, add_div, mul_div_cancel_right₀ _ hne]
  rw [hsplit, add_assoc]
  have hcast : ((m / d : ℕ) : ℚ) = (((m / d : ℕ) : ℤ) : ℚ) :=
    (Int.cast_natCast _).symm
  rw [hcast, Int.floor_int_add]
  congr 1
  by_cases hhalf : d ≤ 2 * (m % d)
  · rw [if_pos hhalf, Int.floor_eq_iff]
    have hge : (1 : ℚ) / 2 ≤ ((m % d : ℕ) : ℚ) / (d : ℚ) := by
      rw [div_le_div_iff (by norm_num) hd0]
      have h2 : (d : ℚ) ≤ 2 * ((m % d : ℕ) : ℚ) := by exact_mod_cast hhalf
      linarith
    have hlt : ((m % d : ℕ) : ℚ) / (d : ℚ) < 1 := by
      rw [div_lt_one hd0]
      exact_mod_cast hmod
    constructor
    · push_cast
      linarith
    · push_cast
      linarith
  · rw [if_neg hhalf, Int.floor_eq_iff]
    have hge : (0 : ℚ) ≤ ((m % d : ℕ) : ℚ) / (d : ℚ) := by positivity
    have hlt : ((m % d : ℕ) : ℚ) / (d : ℚ) < 1 / 2 := by
      rw [div_lt_div_iff hd0 (by norm_num)]
      have h2 : 2 * ((m % d : ℕ) : ℚ) < (d : ℚ) := by
        exact_mod_cast Nat.lt_of_not_le hhalf
      linarith
    constructor
    · push_cast
      linarith
    · push_cast
      linarith

theorem roundHalfAway_nonneg (q : ℚ) (h : 0 ≤ q) :
    roundHalfAway q = ⌊q + 1 / 2⌋ := by
  rw [roundHalfAway, if_pos h]

theorem roundHalfAway_neg_of_nonneg (q : ℚ) (h : 0 ≤ q) :
    roundHalfAway (-q) = -roundHalfAway q := by
  unfold roundHalfAway
  by_cases h0 : 0 ≤ -q
  · have hq0 : q = 0 := le_antisymm (by linarith) h
    subst hq0
    norm_num
  · rw [if_neg h0, if_pos h, neg_neg]

theorem roundHalfAwayP_eq (f : Bool × Nat × Int) :
    roundHalfAwayP f = roundHalfAway (ratOfFloat f) := by
  obtain ⟨neg, m, e⟩ := f
  have hpos : ∀ k : ℕ, roundHalfAway ((m : ℚ) * (10 : ℚ) ^ (Int.ofNat k)) =
      ((m * 10 ^ k : ℕ) : ℤ) := by
    intro k
    have h1 : (m : ℚ) * (10 : ℚ) ^ (Int.ofNat k) =
        (((m * 10 ^ k : ℕ) : ℤ) : ℚ) := by
      show (m : ℚ) * (10 : ℚ) ^ ((k : ℕ) : ℤ) = _
      rw [zpow_natCast]
      push_cast
      ring
    rw [h1, roundHalfAway_nonneg _ (by positivity), floor_add_half_int]
  have hneg : ∀ k : ℕ, roundHalfAway ((m : ℚ) * (10 : ℚ) ^ (Int.negSucc k)) =
      ((m / 10 ^ (k + 1) : ℕ) : ℤ) +
        (if 10 ^ (k + 1) ≤ 2 * (m % 10 ^ (k + 1)) then 1 else 0) := by
    intro k
    have h1 : (m : ℚ) * (10 : ℚ) ^ (Int.negSucc k) =
        (m : ℚ) / ((10 ^ (k + 1) : ℕ) : ℚ) := by
      rw [zpow_negSucc]
      push_cast
      ring
    rw [h1, roundHalfAway_nonneg _ (by positivity),
      floor_div_add_half m (10 ^ (k + 1)) (by positivity)]
  cases neg with
  | false =>
    cases e with
    | ofNat k =>
      show ((m * 10 ^ k : ℕ) : ℤ) =
        roundHalfAway ((m : ℚ) * (10 : ℚ) ^ (Int.ofNat k))
      exact (hpos k).symm
    | negSucc k =>
      show ((m / 10 ^ (k + 1) : ℕ) : ℤ) +
          (if 10 ^ (k + 1) ≤ 2 * (m % 10 ^ (k + 1)) then 1 else 0) =
        roundHalfAway ((m : ℚ) * (10 : ℚ) ^ (Int.negSucc k))
      exact (hneg k).symm
  | true =>
    cases e with
    | ofNat k =>
      have h0 : (0 : ℚ) ≤ (m : ℚ) * (10 : ℚ) ^ (Int.ofNat k) := by positivity
      show -((m * 10 ^ k : ℕ) : ℤ) =
        roundHalfAway (-((m : ℚ) * (10 : ℚ) ^ (Int.ofNat k)))
      rw [roundHalfAway_neg_of_nonneg _ h0, hpos k]
    | negSucc k =>
      have h0 : (0 : ℚ) ≤ (m : ℚ) * (10 : ℚ) ^ (Int.negSucc k) := by positivity
      show -(((m / 10 ^ (k + 1) : ℕ) : ℤ) +
          (if 10 ^ (k + 1) ≤ 2 * (m % 10 ^ (k + 1)) then 1 else 0)) =
        roundHalfAway (-((m : ℚ) * (10 : ℚ) ^ (Int.negSucc k)))
      rw [roundHalfAway_neg_of_nonneg _ h0, hneg k]

/-- C4: `parseInt` trims, fails on empty input, first attempts
base-sensitive integer parsing (decimal, `0x` hexadecimal, leading-zero
octal), falls back to decimal floating-point parsing rounded to the
nearest integer half away from zero, and fails when neither parse
succeeds; in particular `"2.5" = 3`, `"-1.6" = -2`, `"0xFF" = 255`,
`"010" = 8`. -/
theorem parseInt_spec :
    parseInt ("2.5".data) = .ok 3 ∧
    parseInt ("-1.6".data) = .ok (-2) ∧
    parseInt ("0xFF".data) = .ok 255 ∧
    parseInt ("010".data) = .ok 8 ∧
    (∀ s, trimSpace s = [] → parseInt s = .error "empty integer value") ∧
    (∀ s n, trimSpace s ≠ [] → goParseIntBase0 (trimSpace s) = some n →
      parseInt s = .ok n) ∧
    (∀ s q, trimSpace s ≠ [] → goParseIntBase0 (trimSpace s) = none →
      goParseFloatQ (trimSpace s) = some q →
      parseInt s = .ok (roundHalfAway q)) ∧
    (∀ s, trimSpace s ≠ [] → goParseIntBase0 (trimSpace s) = none →
      goParseFloatQ (trimSpace s) = none →
      parseInt s =
        .error ("invalid integer value: " ++ quoteGo (trimSpace s))) := by
  refine ⟨by decide, by decide, by decide, by decide, ?_, ?_, ?_, ?_⟩
  · intro s h
    simp [parseInt, h]
  · intro s n h hint
    simp [parseInt, h, hint]
  · intro s q h hint hq
    unfold goParseFloatQ at hq
    obtain ⟨f, hf, hfq⟩ := Option.map_eq_some'.mp hq
    simp [parseInt, h, hint, hf, ← hfq, roundHalfAwayP_eq]
  · intro s h hint hq
    unfold goParseFloatQ at hq
    have hp := Option.map_eq_none'.mp hq
    simp [parseInt, h, hint, hp]

/-- Witness for C4 at concrete inputs exercising each hypothesis-guarded
branch. -/
theorem parseInt_spec_witness :
    parseInt ("   ".data) = .error "empty integer value" ∧
    parseInt (" 42 ".data) = .ok 42 ∧
    parseInt ("3.7".data) = .ok 4 ∧
    parseInt ("abc".data) =
      .error ("invalid integer value: " ++ quoteGo ("abc".data)) := by
  have h := parseInt_spec
  refine ⟨?_, ?_, ?_, ?_⟩
  · exact h.2.2.2.2.1 ("   ".data) (by decide)
  · exact h.2.2.2.2.2.1 (" 42 ".data) 42 (by decide) (by decide)
  · have h37 := h.2.2.2.2.2.2.1 ("3.7".data) (ratOfFloat (false, 37, -1))
      (by decide) (by decide) rfl
    rw [← roundHalfAwayP_eq] at h37
    rw [h37]
    decide
  · exact h.2.2.2.2.2.2.2 ("abc".data) (by decide) (by decide) (by decide)

theorem parseQuotedBody_encodeDoubled (v : List Char) (h : bslash ∉ v) :
    parseQuotedBody
      ((v.map (fun c => if c = squote then [squote, squote] else [c])).flatten
        ++ [squote]) = some v := by
  have hsb : squote ≠ bslash := by decide
  induction v with
  | nil => simp [parseQuotedBody]
  | cons c cs ih =>
    have hc : c ≠ bslash := fun hc => h (hc ▸ List.mem_cons_self c cs)
    have hcs : bslash ∉ cs := fun hm => h (List.mem_cons_of_mem c hm)
    by_cases hq : c = squote
    · subst hq
      simp only [List.map_cons, if_pos rfl, List.flatten_cons, List.cons_append,
        List.nil_append, List.append_assoc]
      simp [parseQuotedBody, hsb, ih hcs]
    · simp only [List.map_cons, if_neg hq, List.flatten_cons, List.cons_append,
        List.nil_append]
      cases hrest : (cs.map
          (fun c => if c = squote then [squote, squote] else [c])).flatten
          ++ [squote] with
      | nil => exact absurd hrest (List.append_ne_nil_of_right_ne_nil _ (by simp))
      | cons x xs =>
        have hcs2 := ih hcs
        rw [hrest] at hcs2
        simp [parseQuotedBody, hc, hq, hcs2]

theorem parseQuotedBody_encodeBackslash (v : List Char) (h : bslash ∉ v) :
    parseQuotedBody
      ((v.map (fun c => if c = squote then [bslash, squote] else [c])).flatten
        ++ [squote]) = some v := by
  induction v with
  | nil => simp [parseQuotedBody]
  | cons c cs ih =>
    have hc : c ≠ bslash := fun hc => h (hc ▸ List.mem_cons_self c cs)
    have hcs : bslash ∉ cs := fun hm => h (List.mem_cons_of_mem c hm)
    by_cases hq : c = squote
    · subst hq
      simp only [List.map_cons, if_pos rfl, List.flatten_cons, List.cons_append,
        List.nil_append, List.append_assoc]
      simp [parseQuotedBody, ih hcs]
    · simp only [List.map_cons, if_neg hq, List.flatten_cons, List.cons_append,
        List.nil_append]
      cases hrest : (cs.map
          (fun c => if c = squote then [bslash, squote] else [c])).flatten
          ++ [squote] with
      | nil => exact absurd hrest (List.append_ne_nil_of_right_ne_nil _ (by simp))
      | cons x xs =>
        have hcs2 := ih hcs
        rw [hrest] at hcs2
        simp [parseQuotedBody, hc, hq, hcs2]

/-- Counterexample for C5: for `v = ['\', '\'', 'x']` the doubled-quote
encoding decodes (without error) to the single-quote string, while the
backslash encoding decodes to `v`: the two decoded strings differ, and
the doubled decoding is not `v`. -/
theorem quoteRoundTrip_counterexample :
    parseQuotedValue (encodeDoubled [bslash, squote, 'x']) =
      .ok [squote] ∧
    parseQuotedValue (encodeBackslash [bslash, squote, 'x']) =
      .ok [bslash, squote, 'x'] ∧
    ([squote] : List Char) ≠ [bslash, squote, 'x'] := by
  refine ⟨by decide, by decide, by decide⟩

/-- C5 (amended): for every string `v` that contains no backslash
character, the doubled-quote encoding and the backslash encoding of `v`
both decode to exactly `v`. -/
theorem quoteRoundTrip_amended (v : List Char) (h : bslash ∉ v) :
    parseQuotedValue (encodeDoubled v) = .ok v ∧
    parseQuotedValue (encodeBackslash v) = .ok v := by
  constructor
  · unfold parseQuotedValue encodeDoubled
    rw [List.cons_append, List.tail_cons, parseQuotedBody_encodeDoubled v h]
  · unfold parseQuotedValue encodeBackslash
    rw [List.cons_append, List.tail_cons, parseQuotedBody_encodeBackslash v h]

/-- Witness for C5 (amended) at `v = "don't"`. -/
theorem quoteRoundTrip_amended_witness :
    parseQuotedValue (encodeDoubled ("don't".data)) = .ok ("don't".data) ∧
    parseQuotedValue (encodeBackslash ("don't".data)) = .ok ("don't".data) :=
  quoteRoundTrip_amended ("don't".data) (by decide)

theorem parseQuotedBody_closes (body rest : List Char)
    (hq : squote ∉ body) (hb : bslash ∉ body)
    (hr : rest.head? ≠ some squote) :
    parseQuotedBody (body ++ squote :: rest) = some body := by
  induction body with
  | nil =>
    cases rest with
    | nil => simp [parseQuotedBody]
    | cons r rs =>
      have hrq : r ≠ squote := by
        intro hcon
        exact hr (by simp [hcon])
      simp [parseQuotedBody, hrq, Ne.symm hrq]
  | cons c cs ih =>
    have hc1 : c ≠ squote := fun hcon => hq (hcon ▸ List.mem_cons_self c cs)
    have hc2 : c ≠ bslash := fun hcon => hb (hcon ▸ List.mem_cons_self c cs)
    have hq2 : squote ∉ cs := fun hm => hq (List.mem_cons_of_mem c hm)
    have hb2 : bslash ∉ cs := fun hm => hb (List.mem_cons_of_mem c hm)
    have ih2 := ih hq2 hb2
    cases hrest : cs ++ squote :: rest with
    | nil => exact absurd hrest (by simp)
    | cons x xs =>
      rw [hrest] at ih2
      simp only [List.cons_append, hrest]
      simp [parseQuotedBody, hc1, hc2, ih2]

/-- C10: decoding a quoted value stops at the first unescaped closing
quote and silently discards the rest of the line: for any quote-free and
backslash-free `body` and any remainder not beginning with another quote,
`'body'rest` decodes to exactly `body`; in particular the line
`key = 'a' trailing` parses to parameter `key` with value exactly `a`,
both at the line level and through the parse engine. -/
theorem trailingDiscard_spec :
    (∀ body rest, squote ∉ body → bslash ∉ body →
      rest.head? ≠ some squote →
      parseQuotedValue (squote :: (body ++ squote :: rest)) = .ok body) ∧
    parseKeyValue ("key = 'a' trailing".data) = .ok ("key".data, "a".data) ∧
    resultParam (goParse 10 ["key = 'a' trailing".data]) [] ("key".data) =
      some ⟨"key".data, "a".data⟩ := by
  refine ⟨?_, by decide, by decide⟩
  intro body rest h1 h2 h3
  unfold parseQuotedValue
  rw [List.tail_cons, parseQuotedBody_closes body rest h1 h2 h3]

/-- Witness for C10 at a concrete quoted value with trailing garbage. -/
theorem trailingDiscard_spec_witness :
    parseQuotedValue (squote :: ("val".data ++ squote :: " junk".data)) =
      .ok ("val".data) :=
  trailingDiscard_spec.1 ("val".data) (" junk".data) (by decide) (by decide)
    (by decide)

/-- C7: `matchDirective` succeeds exactly when the lower-cased line starts
with the keyword, the line is strictly longer than the keyword, and the
character immediately after the keyword is a space, a TAB or a single
quote; consequently `include_var = x` matches no include directive and
parses as an ordinary key/value parameter. -/
theorem matchDirective_spec :
    (∀ lower line kw, (matchDirective lower line kw).isSome = true ↔
      (listStartsWith lower kw = true ∧ kw.length < line.length ∧
       ∃ c rest, line.drop kw.length = c :: rest ∧
         (c = ' ' ∨ c = htab ∨ c = squote))) ∧
    matchAnyDirective ("include_var = x".data) = none ∧
    resultParam (goParse 10 ["include_var = x".data]) []
      ("include_var".data) = some ⟨"include_var".data, "x".data⟩ := by
  refine ⟨?_, by decide, by decide⟩
  intro lower line kw
  unfold matchDirective
  cases hsw : listStartsWith lower kw with
  | false => simp
  | true =>
    cases hdrop : line.drop kw.length with
    | nil =>
      have hl := congrArg List.length hdrop
      simp only [List.length_drop, List.length_nil] at hl
      simp only [hdrop]
      simp
    | cons next rest2 =>
      have hl := congrArg List.length hdrop
      simp only [List.length_drop, List.length_cons] at hl
      have hlen : kw.length < line.length := by omega
      by_cases hsep : next = ' ' ∨ next = htab ∨ next = squote
      · have hb : (next = ' ' || next = htab || next = squote) = true := by
          rcases hsep with h | h | h <;> simp [h]
        simp only [hdrop, hb]
        simp [hlen]
        exact hsep
      · have hb : (next = ' ' || next = htab || next = squote) = false := by
          push_neg at hsep
          simp [hsep.1, hsep.2.1, hsep.2.2]
        simp only [hdrop, hb]
        simp
        intro h1
        push_neg at hsep
        exact hsep

/-- Witness for C7: the characterization applied at a concrete directive
line. -/
theorem matchDirective_spec_witness :
    (matchDirective (toLowerL ("include 'b.conf'".data))
      ("include 'b.conf'".data) ("include".data)).isSome = true :=
  (matchDirective_spec.1 _ _ _).mpr
    ⟨by decide, by decide, ' ', "'b.conf'".data, by decide, Or.inl rfl⟩

theorem circularMsg_contains (p : String) :
    containsSub ("circular include detected: " ++ p) "circular" := by
  refine ⟨"", " include detected: " ++ p, ?_⟩
  rw [show ("circular include detected: " : String) =
    ("" ++ "circular" ++ " include detected: " : String) from rfl]
  rw [String.append_assoc]

/-- C8: `loadFile` fails with a circular-include condition (the message
contains `circular`) whenever the resolved absolute path is already in
the shared visited set, and otherwise marks the path visited before
parsing the file's lines; in particular two files that include each other
(and a file that includes itself) make the whole load fail with a
circular-include condition. -/
theorem circularInclude_spec :
    (∀ fs fuel st absPath, absPath ∈ st.visited →
      loadFile fs (fuel + 1) st absPath =
        .error ("circular include detected: " ++ quoteGo absPath) ∧
      containsSub ("circular include detected: " ++ quoteGo absPath)
        "circular") ∧
    (∀ fs fuel st absPath ls, absPath ∉ st.visited →
      findFS fs absPath = some ls →
      loadFile fs (fuel + 1) st absPath =
        runLines fs fuel { st with visited := absPath :: st.visited }
          (dirOf absPath) ls) ∧
    (goLoad cfsMutual 20 ("/d/a.conf".data) =
        .error ("circular include detected: " ++ quoteGo ("/d/a.conf".data)) ∧
      containsSub ("circular include detected: " ++ quoteGo ("/d/a.conf".data))
        "circular") ∧
    (goLoad cfsSelf 20 ("/d/self.conf".data) =
        .error ("circular include detected: " ++
          quoteGo ("/d/self.conf".data)) ∧
      containsSub ("circular include detected: " ++
        quoteGo ("/d/self.conf".data)) "circular") := by
  refine ⟨?_, ?_, ⟨by decide, circularMsg_contains _⟩,
    ⟨by decide, circularMsg_contains _⟩⟩
  · intro fs fuel st absPath h
    exact ⟨by simp [loadFile, h], circularMsg_contains _⟩
  · intro fs fuel st absPath ls h hf
    simp [loadFile, h, hf]

/-- Witness for C8: the visited-set check applied to a concrete state that
has already visited the path. -/
theorem circularInclude_spec_witness :
    loadFile [] 1
      { sections := [([], [])], current := [],
        visited := ["/x.conf".data] } ("/x.conf".data) =
      .error ("circular include detected: " ++ quoteGo ("/x.conf".data)) :=
  (circularInclude_spec.1 [] 0
    { sections := [([], [])], current := [], visited := ["/x.conf".data] }
    ("/x.conf".data) (by decide)).1

/-- C1: within one section, repeated assignments to the same case-folded
name leave exactly one `Param` under that key, and looking the name up
yields the value and originally-cased display name of the most recent
assignment (the prior entry is replaced entirely); the parse engine's
per-assignment update is exactly this upsert, as the cross-file include
scenario shows. -/
theorem lastWins_spec :
    (∀ (ps : Params) (as : List (List Char × List Char))
        (name : List Char) (a : List Char × List Char),
      nodupKeys ps →
      (∀ x ∈ as, toLowerL x.1 = toLowerL name) →
      as.getLast? = some a →
      GetParam
          (as.foldl
            (fun acc x => upsert acc (toLowerL x.1) ⟨x.1, x.2⟩) ps) name =
        ⟨a.1, a.2⟩ ∧
      countKey
          (as.foldl
            (fun acc x => upsert acc (toLowerL x.1) ⟨x.1, x.2⟩) ps)
          (toLowerL name) = 1) ∧
    resultParam (goLoad cfsInclude 20 ("/r/main.conf".data)) []
      ("kEy".data) = some ⟨"KEY".data, "b".data⟩ ∧
    resultParam (goParse 20
        ["Key = a".data, "KEY = b".data, "key = c".data]) []
      ("kEy".data) = some ⟨"key".data, "c".data⟩ := by
  refine ⟨?_, by decide, by decide⟩
  intro ps as name a hnd hk hlast
  induction as generalizing ps with
  | nil => cases hlast
  | cons x as' ih =>
    cases as' with
    | nil =>
      simp only [List.getLast?_singleton, Option.some.injEq] at hlast
      subst hlast
      have hx : toLowerL x.1 = toLowerL name := hk x (List.mem_singleton_self x)
      simp only [List.foldl_cons, List.foldl_nil]
      rw [hx]
      constructor
      · unfold GetParam
        rw [findP_upsert_self]
      · exact countKey_upsert_self ps _ _ hnd
    | cons y rest =>
      rw [List.getLast?_cons_cons] at hlast
      have hk' : ∀ z ∈ y :: rest, toLowerL z.1 = toLowerL name :=
        fun z hz => hk z (List.mem_cons_of_mem x hz)
      have hnd' : nodupKeys (upsert ps (toLowerL x.1) ⟨x.1, x.2⟩) :=
        nodupKeys_upsert ps _ _ hnd
      simpa only [List.foldl_cons] using ih _ hnd' hk' hlast

/-- Witness for C1: two same-case-folded assignments folded into an empty
parameter map. -/
theorem lastWins_spec_witness :
    GetParam
        ([(("Port".data : List Char), ("1".data : List Char)),
          (("PORT".data : List Char), ("2".data : List Char))].foldl
          (fun acc x => upsert acc (toLowerL x.1) ⟨x.1, x.2⟩) [])
        ("port".data) = ⟨"PORT".data, "2".data⟩ ∧
    countKey
        ([(("Port".data : List Char), ("1".data : List Char)),
          (("PORT".data : List Char), ("2".data : List Char))].foldl
          (fun acc x => upsert acc (toLowerL x.1) ⟨x.1, x.2⟩) [])
        (toLowerL ("port".data)) = 1 :=
  lastWins_spec.1 [] _ ("port".data) ("PORT".data, "2".data)
    (by simp [nodupKeys]) (by decide) (by decide)

theorem stripCommentGo_at_end (line : List Char) (q : Bool) (i : Nat)
    (h : line.length ≤ i) : stripCommentGo line q i = line := by
  unfold stripCommentGo
  rw [dif_neg (Nat.not_lt.mpr h)]

theorem get_append_len (pre : List Char) (c : Char) (suf : List Char)
    (h : pre.length < (pre ++ c :: suf).length) :
    (pre ++ c :: suf).get ⟨pre.length, h⟩ = c := by
  rw [List.get_eq_getElem, List.getElem_append_right (Nat.le_refl _)]
  simp

theorem get?_append_len_succ (pre : List Char) (c : Char) (suf : List Char) :
    (pre ++ c :: suf).get? (pre.length + 1) = suf.get? 0 := by
  rw [List.get?_append_right (by omega)]
  have h1 : pre.length + 1 - pre.length = 1 := by omega
  rw [h1]
  cases suf <;> simp

theorem specJoin_shift1 (pre : List Char) (c : Char) (suf : List Char)
    (r : Option (List Char)) :
    specJoin (pre ++ [c]) suf r =
      specJoin pre (c :: suf) (r.map (fun p => c :: p)) := by
  cases r <;> simp [specJoin]

theorem specJoin_shift2 (pre : List Char) (c c2 : Char) (suf : List Char)
    (r : Option (List Char)) :
    specJoin (pre ++ [c, c2]) suf r =
      specJoin pre (c :: c2 :: suf) (r.map (fun p => c :: c2 :: p)) := by
  cases r <;> simp [specJoin]

theorem stripCommentGo_spec (n : Nat) : ∀ (suf pre : List Char) (q : Bool),
    suf.length ≤ n →
    stripCommentGo (pre ++ suf) q pre.length =
      specJoin pre suf (stripSpecAux suf q) := by
  have hsb : ¬ squote = bslash := by decide
  have hbs : ¬ bslash = squote := by decide
  have hsh : ¬ squote = hashc := by decide
  have hhs : ¬ hashc = squote := by decide
  induction n with
  | zero =>
    intro suf pre q hlen
    have hs : suf = [] := List.eq_nil_of_length_eq_zero (Nat.le_zero.mp hlen)
    subst hs
    rw [stripCommentGo_at_end _ _ _ (by simp)]
    simp [stripSpecAux, specJoin]
  | succ n ih =>
    intro suf pre q hlen
    match suf with
    | [] =>
      rw [stripCommentGo_at_end _ _ _ (by simp)]
      simp [stripSpecAux, specJoin]
    | [c] =>
      have hend : ∀ qq : Bool,
          stripCommentGo (pre ++ [c]) qq (pre.length + 1) = pre ++ [c] :=
        fun qq => stripCommentGo_at_end _ _ _ (by simp)
      unfold stripCommentGo
      rw [dif_pos (by simp : pre.length < (pre ++ [c]).length)]
      rw [get_append_len pre c [], get?_append_len_succ pre c []]
      cases q with
      | true =>
        by_cases hc : c = squote
        · subst hc
          simp [hsb, hend, stripSpecAux, specJoin]
        · by_cases hb : c = bslash
          · subst hb
            simp [hbs, hend, stripSpecAux, specJoin]
          · simp [hc, hb, hend, stripSpecAux, specJoin]
      | false =>
        by_cases hc : c = squote
        · subst hc
          simp [hsh, hend, stripSpecAux, specJoin]
        · by_cases hh : c = hashc
          · subst hh
            simp [hhs, stripSpecAux, specJoin, List.take_left]
          · simp [hc, hh, hend, stripSpecAux, specJoin]
    | c :: c2 :: cs =>
      have hlen2 : cs.length ≤ n := by
        simp only [List.length_cons] at hlen
        omega
      have hlen1 : (c2 :: cs).length ≤ n := by
        simp only [List.length_cons] at hlen ⊢
        omega
      have ih1 : ∀ qq, stripCommentGo (pre ++ c :: c2 :: cs) qq
          (pre.length + 1) =
          specJoin pre (c :: c2 :: cs)
            ((stripSpecAux (c2 :: cs) qq).map (fun p => c :: p)) := by
        intro qq
        have h0 := ih (c2 :: cs) (pre ++ [c]) qq hlen1
        rw [specJoin_shift1] at h0
        simpa using h0
      have ih2 : stripCommentGo (pre ++ c :: c2 :: cs) true
          (pre.length + 2) =
          specJoin pre (c :: c2 :: cs)
            ((stripSpecAux cs true).map (fun p => c :: c2 :: p)) := by
        have h0 := ih cs (pre ++ [c, c2]) true hlen2
        rw [specJoin_shift2] at h0
        have hx : (pre ++ [c, c2]) ++ cs = pre ++ c :: c2 :: cs := by simp
        have hy : (pre ++ [c, c2]).length = pre.length + 2 := by simp
        rw [hx, hy] at h0
        exact h0
      unfold stripCommentGo
      rw [dif_pos (by simp : pre.length < (pre ++ c :: c2 :: cs).length)]
      rw [get_append_len pre c (c2 :: cs),
        get?_append_len_succ pre c (c2 :: cs)]
      rw [show (c2 :: cs).get? 0 = some c2 from rfl]
      cases q with
      | true =>
        by_cases hb : c = bslash ∧ c2 = squote
        · rw [if_pos (show c = bslash ∧ some c2 = some squote from
            ⟨hb.1, by rw [hb.2]⟩)]
          rw [ih2]
          simp [stripSpecAux, hb.1, hb.2, hsb, hbs, hsh, hhs]
        · have hb' : ¬ (c = bslash ∧ some c2 = some squote) := by
            intro hcon
            exact hb ⟨hcon.1, by injection hcon.2⟩
          rw [if_neg hb']
          by_cases hc : c = squote
          · have hcb : ¬ c = bslash := by rw [hc]; exact hsb
            by_cases hc2 : c2 = squote
            · rw [if_pos hc,
                if_pos (show some c2 = some squote from by rw [hc2]), ih2]
              simp [stripSpecAux, hc, hc2, hcb, hsb, hbs, hsh, hhs]
            · rw [if_pos hc,
                if_neg (show ¬ some c2 = some squote from by simp [hc2]),
                ih1 false]
              simp [stripSpecAux, hc, hc2, hcb, hsb, hbs, hsh, hhs]
          · rw [if_neg hc, ih1 true]
            by_cases hcb : c = bslash
            · have hc2 : ¬ c2 = squote := fun h2 => hb ⟨hcb, h2⟩
              simp [stripSpecAux, hc, hcb, hc2, hsb, hbs, hsh, hhs]
            · simp [stripSpecAux, hc, hcb, hsb, hbs, hsh, hhs]
      | false =>
        by_cases hc : c = squote
        · rw [if_pos hc, ih1 true]
          simp [stripSpecAux, hc, hsb, hbs, hsh, hhs]
        · by_cases hh : c = hashc
          · rw [if_neg hc, if_pos hh]
            simp [stripSpecAux, hc, hh, specJoin, List.take_left, hsb, hbs, hsh, hhs]
          · rw [if_neg hc, if_neg hh, ih1 false]
            simp [stripSpecAux, hc, hh, hsb, hbs, hsh, hhs]

/-- C6: the index-based loop of source `stripComment` computes exactly the
left-to-right quote-tracking automaton: the first `#` outside quotes
truncates the line exclusively, a `#` inside a single-quoted run is kept
literally, and a quote that is part of a doubled or backslash escape does
not toggle the inside-quotes state (illustrated on the four concrete
lines). -/
theorem stripComment_spec :
    (∀ line, stripCommentGo line false 0 = stripComment line) ∧
    stripComment ("key = value # comment".data) = "key = value ".data ∧
    stripComment ("'a#b' # c".data) = "'a#b' ".data ∧
    stripComment ("'don\\'t#x' y".data) = "'don\\'t#x' y".data ∧
    stripComment ("'a''#' # z".data) = "'a''#' ".data := by
  refine ⟨?_, by decide, by decide, by decide, by decide⟩
  intro line
  have h := stripCommentGo_spec line.length line [] false (Nat.le_refl _)
  simp only [List.nil_append, List.length_nil] at h
  rw [h]
  cases hs : stripSpecAux line false <;> simp [stripComment, specJoin, hs]

theorem keys_enterSection (st : PState) (name : List Char) :
    ∃ e, (enterSection st name).sections.map Prod.fst =
      st.sections.map Prod.fst ++ e := by
  unfold enterSection
  by_cases h : (findSec st.sections name).isSome
  · exact ⟨[], by simp [h]⟩
  · exact ⟨[name], by simp [h]⟩

theorem keys_setParam (st : PState) (k v : List Char) :
    (setParam st k v).sections.map Prod.fst = st.sections.map Prod.fst := by
  unfold setParam
  exact keys_updateSec _ _ _

theorem engine_keys_extend (fs : FS) : ∀ fuel : Nat,
    (∀ st baseDir lines st', runLines fs fuel st baseDir lines = .ok st' →
      ∃ ext, st'.sections.map Prod.fst = st.sections.map Prod.fst ++ ext) ∧
    (∀ st p st', loadFile fs fuel st p = .ok st' →
      ∃ ext, st'.sections.map Prod.fst = st.sections.map Prod.fst ++ ext) ∧
    (∀ st d st', loadDir fs fuel st d = .ok st' →
      ∃ ext, st'.sections.map Prod.fst = st.sections.map Prod.fst ++ ext) ∧
    (∀ st d files st', loadDirFiles fs fuel st d files = .ok st' →
      ∃ ext, st'.sections.map Prod.fst = st.sections.map Prod.fst ++ ext) := by
  have chain2 : ∀ (s1 s2 s3 : PState),
      (∃ e, s2.sections.map Prod.fst = s1.sections.map Prod.fst ++ e) →
      (∃ e, s3.sections.map Prod.fst = s2.sections.map Prod.fst ++ e) →
      ∃ e, s3.sections.map Prod.fst = s1.sections.map Prod.fst ++ e := by
    rintro s1 s2 s3 ⟨e1, h1⟩ ⟨e2, h2⟩
    exact ⟨e1 ++ e2, by rw [h2, h1, List.append_assoc]⟩
  intro fuel
  induction fuel with
  | zero =>
    refine ⟨fun st b l st' h => ?_, fun st p st' h => ?_,
      fun st d st' h => ?_, fun st d f st' h => ?_⟩
    · simp [runLines] at h
    · simp [loadFile] at h
    · simp [loadDir] at h
    · simp [loadDirFiles] at h
  | succ n ih =>
    obtain ⟨ihR, ihF, ihD, ihDF⟩ := ih
    refine ⟨?_, ?_, ?_, ?_⟩
    · intro st baseDir lines st' h
      cases lines with
      | nil =>
        simp [runLines] at h
        exact ⟨[], by rw [h]; simp⟩
      | cons line rest =>
        simp only [runLines] at h
        split at h
        · exact ihR _ _ _ _ h
        · split at h
          · split at h
            · simp at h
            · exact chain2 _ _ _ (keys_enterSection st _) (ihR _ _ _ _ h)
          · split at h
            · split at h
              · simp at h
              · split at h
                · simp at h
                · split at h
                  · split at h
                    · simp at h
                    · exact chain2 _ _ _ (ihF _ _ _ (by assumption))
                        (ihR _ _ _ _ h)
                  · split at h
                    · split at h
                      · split at h
                        · simp at h
                        · exact chain2 _ _ _ (ihF _ _ _ (by assumption))
                            (ihR _ _ _ _ h)
                      · exact ihR _ _ _ _ h
                    · split at h
                      · simp at h
                      · exact chain2 _ _ _ (ihD _ _ _ (by assumption))
                          (ihR _ _ _ _ h)
            · split at h
              · simp at h
              · refine chain2 _ _ _ ⟨[], ?_⟩ (ihR _ _ _ _ h)
                rw [keys_setParam]
                simp
    · intro st p st' h
      simp only [loadFile] at h
      split at h
      · simp at h
      · split at h
        · simp at h
        · exact chain2 st { st with visited := p :: st.visited } st'
            ⟨[], by simp⟩ (ihR _ _ _ _ h)
    · intro st d st' h
      simp only [loadDir] at h
      exact ihDF _ _ _ _ h
    · intro st d files st' h
      cases files with
      | nil =>
        simp [loadDirFiles] at h
        exact ⟨[], by rw [h]; simp⟩
      | cons name rest =>
        simp only [loadDirFiles] at h
        split at h
        · simp at h
        · exact chain2 _ _ _ (ihF _ _ _ (by assumption)) (ihDF _ _ _ _ h)

theorem runLines_keys_frozen (fs : FS) : ∀ fuel : Nat, ∀ st lines st',
    (∀ l ∈ lines,
      ¬ (listStartsWith (trimSpace (stripComment l)) ['['] = true)) →
    runLines fs fuel st [] lines = .ok st' →
    st'.sections.map Prod.fst = st.sections.map Prod.fst := by
  intro fuel
  induction fuel with
  | zero =>
    intro st lines st' hh h
    simp [runLines] at h
  | succ n ih =>
    intro st lines st' hh h
    cases lines with
    | nil =>
      simp [runLines] at h
      rw [h]
    | cons line rest =>
      have hline := hh line (List.mem_cons_self _ _)
      have hrest : ∀ l ∈ rest,
          ¬ (listStartsWith (trimSpace (stripComment l)) ['['] = true) :=
        fun l hl => hh l (List.mem_cons_of_mem _ hl)
      simp only [runLines] at h
      by_cases hblank : trimSpace (stripComment line) = []
      · rw [if_pos hblank] at h
        exact ih _ _ _ hrest h
      · rw [if_neg hblank, if_neg hline] at h
        cases hma : matchAnyDirective (trimSpace (stripComment line)) with
        | some pr =>
          obtain ⟨directive, restArg⟩ := pr
          rw [hma] at h
          simp at h
        | none =>
          rw [hma] at h
          cases hkv : parseKeyValue (trimSpace (stripComment line)) with
          | error e =>
            rw [hkv] at h
            simp at h
          | ok kv =>
            obtain ⟨k, v⟩ := kv
            rw [hkv] at h
            rw [ih _ _ _ hrest h, keys_setParam]

/-- C2: every accepted `Parse` or `Load` run yields a config that contains
the default section: `Section("")` is non-absent, `HasSection("")` holds,
and `SectionNames()` never lists `""`; for an input without section
headers `SectionNames()` is empty. -/
theorem defaultSection_spec :
    (∀ fuel lines cfg, goParse fuel lines = .ok cfg →
      HasSection cfg [] = true ∧ (sectionF cfg []).isSome = true ∧
      [] ∉ SectionNames cfg) ∧
    (∀ fs fuel path cfg, goLoad fs fuel path = .ok cfg →
      HasSection cfg [] = true ∧ (sectionF cfg []).isSome = true ∧
      [] ∉ SectionNames cfg) ∧
    (∀ fuel lines cfg,
      (∀ l ∈ lines,
        ¬ (listStartsWith (trimSpace (stripComment l)) ['['] = true)) →
      goParse fuel lines = .ok cfg → SectionNames cfg = []) := by
  refine ⟨?_, ?_, ?_⟩
  · intro fuel lines cfg h
    unfold goParse at h
    cases hr : runLines [] fuel initState [] lines with
    | error e =>
      rw [hr] at h
      simp [Except.map] at h
    | ok st' =>
      rw [hr] at h
      simp only [Except.map, Except.ok.injEq] at h
      subst h
      obtain ⟨ext, hext⟩ := (engine_keys_extend [] fuel).1 _ _ _ _ hr
      have hmem : ([] : List Char) ∈ st'.sections.map Prod.fst := by
        rw [hext]
        simp [initState]
      exact ⟨(findSec_isSome_iff _ _).mpr hmem,
        (findSec_isSome_iff _ _).mpr hmem, sectionNames_not_default _⟩
  · intro fs fuel path cfg h
    unfold goLoad at h
    cases hr : loadFile fs fuel initState path with
    | error e =>
      rw [hr] at h
      simp [Except.map] at h
    | ok st' =>
      rw [hr] at h
      simp only [Except.map, Except.ok.injEq] at h
      subst h
      obtain ⟨ext, hext⟩ := (engine_keys_extend fs fuel).2.1 _ _ _ hr
      have hmem : ([] : List Char) ∈ st'.sections.map Prod.fst := by
        rw [hext]
        simp [initState]
      exact ⟨(findSec_isSome_iff _ _).mpr hmem,
        (findSec_isSome_iff _ _).mpr hmem, sectionNames_not_default _⟩
  · intro fuel lines cfg hh h
    unfold goParse at h
    cases hr : runLines [] fuel initState [] lines with
    | error e =>
      rw [hr] at h
      simp [Except.map] at h
    | ok st' =>
      rw [hr] at h
      simp only [Except.map, Except.ok.injEq] at h
      subst h
      have hk := runLines_keys_frozen [] fuel initState lines st' hh hr
      unfold SectionNames
      rw [hk]
      decide

/-- Witness for C2 at the empty input. -/
theorem defaultSection_spec_witness :
    (HasSection [(([] : List Char), ([] : Params))] [] = true ∧
      (sectionF [(([] : List Char), ([] : Params))] []).isSome = true ∧
      [] ∉ SectionNames [(([] : List Char), ([] : Params))]) ∧
    SectionNames [(([] : List Char), ([] : Params))] = [] :=
  ⟨defaultSection_spec.1 1 [] [([], [])] (by decide),
   defaultSection_spec.2.2 1 [] [([], [])] (by simp) (by decide)⟩
